import Mathlib

/-!
# Verification of the Confluence historical-content harvester

Shallow embedding of `perceval/backends/core/confluence.py`
(class `Confluence`, class `ConfluenceClient`) and proofs about it.

Instants (`datetime` values) are modelled as `Int` epoch seconds.
HTTP query parameters are modelled as association lists in insertion
order.  The remote server is modelled as a function supplied as an
argument: for the version walk it maps a version number to a response,
for the paginated search it maps a (url, params) request to a page.
-/

namespace Confluence

/-- HTTP query parameters, in insertion order (Python dict literal order). -/
abbrev Params := List (String × String)

/-- Module constant `MAX_CONTENTS` (confluence.py line 38). -/
def MAX_CONTENTS : Nat := 200

/-- Model of `grimoirelab_toolkit.uris.urijoin` (external collaborator):
joins two URI parts with a single slash.  The claims only depend on it
being a fixed binary join, not on its slash-normalisation details. -/
def urijoin (a b : String) : String := a ++ "/" ++ b

/-- The fields of a parsed historical-content response that the backend
reads: `hc['id']`, `hc['version']['number']`, `hc['version']['when']`
(parsed by `str_to_datetime`, modelled as epoch seconds) and
`hc['history']['latest']`. -/
structure HC where
  id : String
  versionNumber : Nat
  versionWhen : Int
  latest : Bool
  deriving Repr, DecidableEq

/-- Result of `client.historical_content(cid, version)`: either the parsed
body or a `requests.exceptions.HTTPError` carrying a status code. -/
inductive FetchResult where
  | ok (hc : HC)
  | httpError (code : Nat)
  deriving Repr, DecidableEq

/-- How a walk (or the whole harvest) ended: `done` models normal
generator exhaustion (`break` or `fetching = False`), `raised code`
models an `HTTPError` re-raised to the caller, `fuelOut` is the
model artefact for exhausted fuel. -/
inductive WalkOutcome where
  | done
  | raised (code : Nat)
  | fuelOut
  deriving Repr, DecidableEq

/-- Trace of one content id's version walk: the version numbers requested,
the successfully fetched-and-parsed contents (in order), the contents
yielded to the caller (in order), and how the walk ended. -/
structure WalkTrace where
  requests : List Nat
  fetched : List HC
  emitted : List HC
  outcome : WalkOutcome
  deriving Repr, DecidableEq

/-- Embedding of `Confluence.__fetch_historical_contents` (confluence.py
lines 238-275), as a function of the per-version server behaviour, the
`from_date` checkpoint, a fuel bound (the Python loop has none) and the
current `version` counter (started at 1 by the source).

Per step: fetch `version`; on `HTTPError` re-raise unless the status code
is 404 or 500, in which case log and `break`; otherwise parse, yield the
content iff `when >= from_date`, set `fetching = not latest`, and
increment `version`. -/
def fetchHistoricalContents (server : Nat → FetchResult) (from_date : Int) :
    Nat → Nat → WalkTrace
  | 0, _ => ⟨[], [], [], .fuelOut⟩
  | fuel + 1, version =>
    match server version with
    | .httpError code =>
      if ¬(code = 404 ∨ code = 500) then ⟨[version], [], [], .raised code⟩
      else ⟨[version], [], [], .done⟩
    | .ok hc =>
      let rest :=
        if hc.latest then WalkTrace.mk [] [] [] .done
        else fetchHistoricalContents server from_date fuel (version + 1)
      ⟨version :: rest.requests,
       hc :: rest.fetched,
       (if from_date ≤ hc.versionWhen then [hc] else []) ++ rest.emitted,
       rest.outcome⟩

/-- The walk as started by the source: `version = 1`. -/
def walk (server : Nat → FetchResult) (from_date : Int) (fuel : Nat) : WalkTrace :=
  fetchHistoricalContents server from_date fuel 1

/-- A server is faithful for a content id when every successful response
to "give me version `v`" reports that id and that version number. -/
def FaithfulAt (server : Nat → FetchResult) (cid : String) : Prop :=
  ∀ v hc, server v = .ok hc → hc.id = cid ∧ hc.versionNumber = v

/-- Decimal digit character, for the model of Python's `str` on `int`. -/
def digitChar : Nat → Char
  | 0 => '0'
  | 1 => '1'
  | 2 => '2'
  | 3 => '3'
  | 4 => '4'
  | 5 => '5'
  | 6 => '6'
  | 7 => '7'
  | 8 => '8'
  | _ => '9'

/-- Decimal digits of `n`, most significant first; fuel-driven recursion
(`fuel > n` suffices since the argument shrinks by a factor of 10). -/
def natDigits : Nat → Nat → List Char
  | 0, _ => []
  | fuel + 1, n =>
    if n < 10 then [digitChar n]
    else natDigits fuel (n / 10) ++ [digitChar (n % 10)]

/-- Model of Python's `str` applied to a non-negative `int`: its decimal
representation. -/
def natStr (n : Nat) : String := ⟨natDigits (n + 1) n⟩

/-- Embedding of `Confluence.metadata_id` (confluence.py lines 155-169):
`str(item['id']) + '#v' + str(item['version']['number'])`. -/
def metadata_id (item : HC) : String :=
  item.id ++ "#v" ++ natStr item.versionNumber

/-- Embedding of `Confluence.metadata_updated_on` (confluence.py lines
171-185): the epoch timestamp of `item['version']['when']`. -/
def metadata_updated_on (item : HC) : Int := item.versionWhen

/-- Numeric value of a digit character (partial inverse of `digitChar`). -/
def charVal (c : Char) : Nat := c.toNat - 48

/-- Value of a most-significant-first digit list. -/
def digitsVal (l : List Char) : Nat :=
  l.foldl (fun a c => 10 * a + charVal c) 0

/-- A content summary as consumed by the backend: `content['id']`,
`content['_links']['webui']` and the optional `content['ancestors']`
list (each ancestor contributing its `_links.webui` path).  `none`
models an absent `ancestors` key, `some []` a present-but-empty one. -/
structure Summary where
  id : String
  webui : String
  ancestors : Option (List String)
  deriving Repr, DecidableEq

/-- One page returned by the search endpoint, as the backend reads it:
the `results` list of summaries and the optional `_links.next`
continuation path (`none` models both a missing `_links` object and a
missing `next` key). -/
structure PageResponse where
  results : List Summary
  nextLink : Option String
  deriving Repr, DecidableEq

/-- Trace of `ConfluenceClient._call`: the (url, params) of each issued
request, the pages received, and whether the loop reached its `break`
(`completed = false` is the fuel-exhaustion artefact). -/
structure CallTrace where
  requests : List (String × Params)
  responses : List PageResponse
  completed : Bool
  deriving Repr, DecidableEq

/-- Embedding of `ConfluenceClient._call` (confluence.py lines 396-421):
request `url` with `params`, yield the page; stop unless the response
carries a `next` link; otherwise continue from `urijoin(base_url, next)`
with an empty parameter dict. -/
def callTrace (base : String) (server : String → Params → PageResponse) :
    Nat → String → Params → CallTrace
  | 0, _, _ => ⟨[], [], false⟩
  | fuel + 1, url, params =>
    let r := server url params
    match r.nextLink with
    | none => ⟨[(url, params)], [r], true⟩
    | some nxt =>
      let t := callTrace base server fuel (urijoin base nxt) []
      ⟨(url, params) :: t.requests, r :: t.responses, t.completed⟩

/-- The `%(base)s/rest/api/%(resource)s` URL template of the client. -/
def resourceUrl (base resource : String) : String :=
  base ++ "/rest/api/" ++ resource

/-- The `content/search` resource of `ConfluenceClient.contents`,
with `?expand=ancestors` appended when ancestors are indexed
(confluence.py lines 358-360). -/
def contentsResource (add_ancestors : Bool) : String :=
  if add_ancestors then "content" ++ "/" ++ "search" ++ "?expand=ancestors"
  else "content" ++ "/" ++ "search"

/-- Model of `from_date.strftime("%Y-%m-%d %H:%M")`: the formatted string
is a function of the minute count alone (seconds are dropped). -/
def dateFmt (t : Int) : String := toString (t / 60)

/-- The `lastModified` CQL filter `VCQL % {'date': date}` built by
`contents` (confluence.py lines 337, 362-364); the quote characters of
the raw template are irrelevant to every claim and elided. -/
def vcql (date : String) : String :=
  "lastModified>=" ++ date ++ " order by lastModified"

/-- The parameter dict built by `ConfluenceClient.contents` (confluence.py
lines 366-373): `cql`, `limit`, and — only when `offset` is truthy —
`start`. -/
def contentsParams (from_date : Int) (offset : Option Nat) (max_contents : Nat) : Params :=
  let ps : Params := [("cql", vcql (dateFmt from_date)), ("limit", natStr max_contents)]
  match offset with
  | none => ps
  | some o => if o ≠ 0 then ps ++ [("start", natStr o)] else ps

/-- Embedding of `ConfluenceClient.contents` (confluence.py lines
345-376): one `_call` of the search resource with the CQL/limit/offset
parameters. -/
def contents (base : String) (server : String → Params → PageResponse)
    (add_ancestors : Bool) (from_date : Int) (offset : Option Nat)
    (max_contents : Nat) (fuel : Nat) : CallTrace :=
  callTrace base server fuel (resourceUrl base (contentsResource add_ancestors))
    (contentsParams from_date offset max_contents)

/-- Embedding of `Confluence.__fetch_contents_summary` together with
`parse_contents_summary` (confluence.py lines 196-211, 232-236): every
page's `results`, flattened in page order. -/
def contentsSummaries (t : CallTrace) : List Summary :=
  (t.responses.map PageResponse.results).flatten

/-- `Chains base server url params pages holds when the server, asked from
(url, params) and then following each page's next link with empty
parameters, produces exactly `pages`, the last of which carries no
continuation link. -/
def Chains (base : String) (server : String → Params → PageResponse) :
    String → Params → List PageResponse → Prop
  | _, _, [] => False
  | url, params, [p] => server url params = p ∧ p.nextLink = none
  | url, params, p :: q :: rest =>
    server url params = p ∧
    ∃ nxt, p.nextLink = some nxt ∧
      Chains base server (urijoin base nxt) [] (q :: rest)

/-- Embedding of the static method `Confluence.add_ancestors`
(confluence.py lines 95-103), as the value it leaves in the item's
`ancestors` field: the field is set (to `url_prefix + ancestor webui`
for each ancestor, in order) only when the summary carries a present,
non-empty ancestor list; otherwise it is left absent (`none`). -/
def add_ancestors (origin : String) (content : Summary) : Option (List String) :=
  match content.ancestors with
  | none => none
  | some l => if l = [] then none else some (l.map (fun a => origin ++ a))

/-- The envelope yielded by `fetch_items` for one historical content:
the parsed content, the `content_url` derived from the summary, and the
optional `ancestors` field. -/
structure Envelope where
  hc : HC
  content_url : String
  ancestorUrls : Option (List String)
  deriving Repr, DecidableEq

/-- Normalisation of one historical content against its summary, as done
in the body of the `for hc in hcs` loop (confluence.py lines 130-133). -/
def normalizeItem (origin : String) (content : Summary) (hc : HC) : Envelope :=
  ⟨hc, urijoin origin content.webui, add_ancestors origin content⟩

/-- Result of draining the nested loops of `fetch_items`: the envelopes
yielded, the version requests issued (content id, version number) in
order, and the outcome (a walk that raises aborts the whole harvest,
keeping earlier envelopes). -/
structure ItemsResult where
  emitted : List Envelope
  versionRequests : List (String × Nat)
  outcome : WalkOutcome
  deriving Repr, DecidableEq

/-- The outer loop of `Confluence.fetch_items` (confluence.py lines
124-134) over an already materialised summary list: for each summary,
drain its version walk completely, normalising and yielding each
emitted content, before moving to the next summary. -/
def processSummaries (origin : String) (vserver : String → Nat → FetchResult)
    (from_date : Int) (vfuel : Nat) : List Summary → ItemsResult
  | [] => ⟨[], [], .done⟩
  | content :: rest =>
    let t := fetchHistoricalContents (vserver content.id) from_date vfuel 1
    let envs := t.emitted.map (normalizeItem origin content)
    let vreqs := t.requests.map (fun v => (content.id, v))
    match t.outcome with
    | .done =>
      let r := processSummaries origin vserver from_date vfuel rest
      ⟨envs ++ r.emitted, vreqs ++ r.versionRequests, r.outcome⟩
    | o => ⟨envs, vreqs, o⟩

/-- Full trace of `Confluence.fetch_items` (confluence.py lines 105-137):
the page requests of the summary pagination, the version requests of the
walks, and the envelopes yielded. -/
structure HarvestTrace where
  emitted : List Envelope
  pageRequests : List (String × Params)
  versionRequests : List (String × Nat)
  outcome : WalkOutcome
  deriving Repr, DecidableEq

/-- Embedding of `Confluence.fetch_items`: the summary generator is
drained into a list first (`contents = [content for content in contents]`,
confluence.py line 122) — so every page request precedes every version
request — and then each summary's version walk is drained in turn.
`fetch_items` passes no offset and the default page size to the client
(confluence.py lines 232-236, 345-346). -/
def fetch_items (url : String) (pserver : String → Params → PageResponse)
    (vserver : String → Nat → FetchResult) (add_anc : Bool) (from_date : Int)
    (pfuel vfuel : Nat) : HarvestTrace :=
  let ct := contents url pserver add_anc from_date none MAX_CONTENTS pfuel
  let summaries := contentsSummaries ct
  let r := processSummaries url vserver from_date vfuel summaries
  ⟨r.emitted, ct.requests, r.versionRequests, r.outcome⟩

/-- A request issued by the harvest, in issue order: a summary page
request or a historical-version request. -/
inductive Req where
  | page (url : String) (params : Params)
  | version (cid : String) (version : Nat)
  deriving Repr, DecidableEq

/-- The request sequence of one harvest run, in issue order.  Because
`fetch_items` materialises the summary list before starting any walk,
the page requests all come first. -/
def harvestRequests (t : HarvestTrace) : List Req :=
  t.pageRequests.map (fun rq => Req.page rq.1 rq.2) ++
    t.versionRequests.map (fun rv => Req.version rv.1 rv.2)

/-- Modelled from the spec: `perceval.utils.DEFAULT_DATETIME` is not in
the sources under verification; per the spec it is the "full harvest"
sentinel, the fixed minimal instant 1970-01-01T00:00:00Z (epoch 0). -/
def DEFAULT_DATETIME : Int := 0

/-- Modelled from the spec: `grimoirelab_toolkit.datetime.datetime_to_utc`
is not in the sources under verification; per the spec it converts an
instant to UTC with no other validation, hence preserves the instant. -/
def datetime_to_utc (t : Int) : Int := t

/-- The `from_date` resolution of `Confluence.fetch` (confluence.py lines
85-88): `if not from_date: from_date = DEFAULT_DATETIME` followed by
`from_date = datetime_to_utc(from_date)`.  Total by construction. -/
def resolveFromDate : Option Int → Int
  | none => datetime_to_utc DEFAULT_DATETIME
  | some t => datetime_to_utc t

/-- Concrete version server built from a finite version history:
version `v ≥ 1` answers with the `v`-th entry, anything else is a 404. -/
def vsOf (l : List HC) : Nat → FetchResult := fun v =>
  match v with
  | 0 => .httpError 404
  | v + 1 =>
    match l[v]? with
    | some hc => .ok hc
    | none => .httpError 404

/-- Concrete fixture: a two-version history where version 1 (updated at
epoch 10) is not latest and version 2 (updated at epoch 3) is latest. -/
def historyA : List HC := [⟨"c1", 1, 10, false⟩, ⟨"c1", 2, 3, true⟩]

/-- Concrete fixture for the mid-history failure scenario: versions 1-4
succeed (non-latest), version 5 answers 500. -/
def serverB : Nat → FetchResult := fun v =>
  if v = 5 then .httpError 500
  else if 1 ≤ v ∧ v ≤ 4 then .ok ⟨"cB", v, 20, false⟩
  else .httpError 404

/-- Concrete fixture: version 5 of this server fails with 403
(an error outside the recoverable 404/500 pair). -/
def serverB' : Nat → FetchResult := fun v =>
  if v = 5 then .httpError 403
  else if 1 ≤ v ∧ v ≤ 4 then .ok ⟨"cB", v, 20, false⟩
  else .httpError 404

/-- Concrete fixture: three summary pages of sizes 2, 2, 1; the first two
carry continuation links `n1`, `n2`, the last carries none. -/
def pageOf : Nat → PageResponse
  | 0 => ⟨[⟨"s1", "/p1", none⟩, ⟨"s2", "/p2", none⟩], some "n1"⟩
  | 1 => ⟨[⟨"s3", "/p3", none⟩, ⟨"s4", "/p4", none⟩], some "n2"⟩
  | _ => ⟨[⟨"s5", "/p5", none⟩], none⟩

/-- Concrete page server realising `pageOf`: the initial search url gets
page 0, the two continuation urls get pages 1 and 2. -/
def pserver3 : String → Params → PageResponse := fun url _ =>
  if url = urijoin "b" "n1" then pageOf 1
  else if url = urijoin "b" "n2" then pageOf 2
  else pageOf 0

/-- Concrete fixture: one page, one summary that carries a non-empty
ancestor list. -/
def pserverAnc : String → Params → PageResponse := fun _ _ =>
  ⟨[⟨"cA", "/pA", some ["/anc1"]⟩], none⟩

/-- Concrete fixture: two pages with one ancestor-free summary each. -/
def pserverTwo : String → Params → PageResponse := fun url _ =>
  if url = urijoin "b" "n1" then ⟨[⟨"c2", "/p2", none⟩], none⟩
  else ⟨[⟨"c1", "/p1", none⟩], some "n1"⟩

/-- Concrete version server for multi-content fixtures: every content id
has exactly one version, flagged latest, updated at epoch 50. -/
def vserver1 : String → Nat → FetchResult := fun cid v =>
  if v = 1 then .ok ⟨cid, 1, 50, true⟩ else .httpError 404

/-! ## Theorems -/

theorem fetchHC_zero (server : Nat → FetchResult) (d : Int) (v : Nat) :
    fetchHistoricalContents server d 0 v = ⟨[], [], [], .fuelOut⟩ := rfl

theorem fetchHC_error (server : Nat → FetchResult) (d : Int) (fuel v code : Nat)
    (h : server v = .httpError code) :
    fetchHistoricalContents server d (fuel + 1) v =
      if ¬(code = 404 ∨ code = 500) then ⟨[v], [], [], .raised code⟩
      else ⟨[v], [], [], .done⟩ := by
  simp [fetchHistoricalContents, h]

theorem fetchHC_ok (server : Nat → FetchResult) (d : Int) (fuel v : Nat) (hc : HC)
    (h : server v = .ok hc) :
    fetchHistoricalContents server d (fuel + 1) v =
      (let rest :=
        if hc.latest then WalkTrace.mk [] [] [] .done
        else fetchHistoricalContents server d fuel (v + 1)
      ⟨v :: rest.requests,
       hc :: rest.fetched,
       (if d ≤ hc.versionWhen then [hc] else []) ++ rest.emitted,
       rest.outcome⟩) := by
  simp [fetchHistoricalContents, h]

/-- The emitted list is exactly the fetched list filtered by the
checkpoint comparison `when >= from_date`. -/
theorem emitted_eq_fetched_filter (server : Nat → FetchResult) (d : Int) :
    ∀ fuel v, (fetchHistoricalContents server d fuel v).emitted =
      (fetchHistoricalContents server d fuel v).fetched.filter
        (fun hc => d ≤ hc.versionWhen) := by
  intro fuel
  induction fuel with
  | zero => intro v; rfl
  | succ fuel ih =>
    intro v
    cases hsv : server v with
    | httpError code =>
      rw [fetchHC_error server d fuel v code hsv]
      by_cases hcode : code = 404 ∨ code = 500 <;> simp [hcode]
    | ok hc =>
      rw [fetchHC_ok server d fuel v hc hsv]
      by_cases hl : hc.latest
      · by_cases hw : d ≤ hc.versionWhen <;> simp [hl, hw, List.filter]
      · by_cases hw : d ≤ hc.versionWhen <;> simp [hl, hw, List.filter, ih (v + 1)]

/-- The requested version numbers do not depend on the checkpoint: the
checkpoint filter only decides emission, never advancement. -/
theorem requests_indep_of_checkpoint (server : Nat → FetchResult) (d d' : Int) :
    ∀ fuel v, (fetchHistoricalContents server d fuel v).requests =
      (fetchHistoricalContents server d' fuel v).requests := by
  intro fuel
  induction fuel with
  | zero => intro v; rfl
  | succ fuel ih =>
    intro v
    cases hsv : server v with
    | httpError code =>
      rw [fetchHC_error server d fuel v code hsv, fetchHC_error server d' fuel v code hsv]
    | ok hc =>
      rw [fetchHC_ok server d fuel v hc hsv, fetchHC_ok server d' fuel v hc hsv]
      by_cases hl : hc.latest
      · simp [hl]
      · simp only [hl, if_neg, Bool.false_eq_true, if_false]
        simp [ih (v + 1)]

/-- The requested version numbers form a consecutive run starting at the
initial `version` counter. -/
theorem requests_eq_range' (server : Nat → FetchResult) (d : Int) :
    ∀ fuel v, (fetchHistoricalContents server d fuel v).requests =
      List.range' v (fetchHistoricalContents server d fuel v).requests.length := by
  intro fuel
  induction fuel with
  | zero => intro v; rfl
  | succ fuel ih =>
    intro v
    cases hsv : server v with
    | httpError code =>
      rw [fetchHC_error server d fuel v code hsv]
      by_cases hcode : code = 404 ∨ code = 500 <;> simp [hcode, List.range'_succ]
    | ok hc =>
      rw [fetchHC_ok server d fuel v hc hsv]
      by_cases hl : hc.latest
      · simp [hl, List.range'_succ]
      · simp only [hl, Bool.false_eq_true, if_false, List.length_cons]
        rw [List.range'_succ]
        exact congrArg (v :: ·) (ih (v + 1))

/-- Once a fetched version carries `latest = true`, the walk requests no
further version: that version number is the last request. -/
theorem latest_is_last_request (server : Nat → FetchResult) (d : Int) :
    ∀ fuel v i hc, i ∈ (fetchHistoricalContents server d fuel v).requests →
      server i = .ok hc → hc.latest = true →
      (fetchHistoricalContents server d fuel v).requests.getLast? = some i := by
  intro fuel
  induction fuel with
  | zero => intro v i hc hmem; simp [fetchHC_zero] at hmem
  | succ fuel ih =>
    intro v i hc hmem hsrv hlatest
    cases hsv : server v with
    | httpError code =>
      rw [fetchHC_error server d fuel v code hsv] at hmem ⊢
      by_cases hcode : code = 404 ∨ code = 500 <;>
        simp [hcode] at hmem ⊢ <;> exact hmem.symm
    | ok hc' =>
      rw [fetchHC_ok server d fuel v hc' hsv] at hmem ⊢
      by_cases hl : hc'.latest
      · simp [hl] at hmem ⊢; exact hmem.symm
      · simp only [hl, Bool.false_eq_true, if_false] at hmem ⊢
        rcases List.mem_cons.mp hmem with hiv | htail
        · subst hiv
          rw [hsv] at hsrv
          cases hsrv
          rw [hlatest] at hl
          exact absurd rfl hl
        · have hlast := ih (v + 1) i hc htail hsrv hlatest
          have hne : (fetchHistoricalContents server d fuel (v + 1)).requests ≠ [] := by
            intro hnil; rw [hnil] at htail; exact List.not_mem_nil i htail
          cases hreq : (fetchHistoricalContents server d fuel (v + 1)).requests with
          | nil => exact absurd hreq hne
          | cons a l =>
            rw [hreq] at hlast
            rw [List.getLast?_cons_cons, hlast]

/-- Under a faithful server, every fetched content of the walk from `v`
carries a version number `≥ v`, equal to the request it answered. -/
theorem fetched_bounds (server : Nat → FetchResult) (d : Int) (cid : String)
    (hfaith : FaithfulAt server cid) :
    ∀ fuel v, (∀ hc ∈ (fetchHistoricalContents server d fuel v).fetched,
        v ≤ hc.versionNumber ∧ hc.id = cid) ∧
      List.Pairwise (fun a b => a.versionNumber < b.versionNumber)
        (fetchHistoricalContents server d fuel v).fetched := by
  intro fuel
  induction fuel with
  | zero => intro v; exact ⟨by simp [fetchHC_zero], by simp [fetchHC_zero]⟩
  | succ fuel ih =>
    intro v
    cases hsv : server v with
    | httpError code =>
      rw [fetchHC_error server d fuel v code hsv]
      by_cases hcode : code = 404 ∨ code = 500 <;> simp [hcode]
    | ok hc =>
      rw [fetchHC_ok server d fuel v hc hsv]
      obtain ⟨hid, hnum⟩ := hfaith v hc hsv
      by_cases hl : hc.latest
      · simp [hl, hnum, hid]
      · simp only [hl, Bool.false_eq_true, if_false]
        refine ⟨?_, ?_⟩
        · intro hc' hmem
          rcases List.mem_cons.mp hmem with h | h
          · subst h; exact ⟨le_of_eq hnum.symm, hid⟩
          · obtain ⟨hle, hid'⟩ := (ih (v + 1)).1 hc' h
            exact ⟨le_trans (Nat.le_succ v) hle, hid'⟩
        · refine List.pairwise_cons.mpr ⟨?_, (ih (v + 1)).2⟩
          intro hc' hmem
          have := ((ih (v + 1)).1 hc' hmem).1
          omega

/-- When versions `v, …, n-1` respond successfully with non-latest
contents and version `n` fails with an HTTP error, the walk from `v`
requests exactly `v, …, n`, fetches only pre-error versions, and ends
`done` on a 404/500 and `raised` on any other status code. -/
theorem walk_stops_at_error (server : Nat → FetchResult) (d : Int) :
    ∀ fuel v n code, v ≤ n → n - v < fuel →
      (∀ i, v ≤ i → i < n → ∃ hc, server i = .ok hc ∧ hc.latest = false) →
      server n = .httpError code →
      (fetchHistoricalContents server d fuel v).requests = List.range' v (n - v + 1) ∧
      (∀ hc ∈ (fetchHistoricalContents server d fuel v).fetched,
        ∃ i, v ≤ i ∧ i < n ∧ server i = .ok hc) ∧
      (fetchHistoricalContents server d fuel v).outcome =
        (if ¬(code = 404 ∨ code = 500) then .raised code else .done) := by
  intro fuel
  induction fuel with
  | zero => intro v n code hvn hlt; omega
  | succ fuel ih =>
    intro v n code hvn hlt hok hn
    rcases Nat.eq_or_lt_of_le hvn with heq | hlt'
    · subst heq
      rw [fetchHC_error server d fuel v code hn]
      by_cases hcode : code = 404 ∨ code = 500 <;> simp [hcode]
    · obtain ⟨hc, hsv, hlatest⟩ := hok v le_rfl hlt'
      rw [fetchHC_ok server d fuel v hc hsv]
      simp only [hlatest, Bool.false_eq_true, if_false]
      have hok' : ∀ i, v + 1 ≤ i → i < n → ∃ hc, server i = .ok hc ∧ hc.latest = false :=
        fun i hi hin => hok i (by omega) hin
      obtain ⟨hreq, hfetch, hout⟩ :=
        ih (v + 1) n code (by omega) (by omega) hok' hn
      refine ⟨?_, ?_, hout⟩
      · rw [hreq]
        have : n - v + 1 = (n - (v + 1) + 1) + 1 := by omega
        rw [this, List.range'_succ]
        congr 1
      · intro hc' hmem
        rcases List.mem_cons.mp hmem with h | h
        · subst h; exact ⟨v, le_rfl, hlt', hsv⟩
        · obtain ⟨i, hi1, hi2, hi3⟩ := hfetch hc' h
          exact ⟨i, by omega, hi2, hi3⟩

/-- Termination bound: if version `N` is flagged latest, or some version
in `[v, N]` fails with an HTTP error, the walk from `v` with enough fuel
ends (no fuel exhaustion) after at most `N - v + 1` fetches. -/
theorem walk_terminates_aux (server : Nat → FetchResult) (d : Int) :
    ∀ fuel v N, v ≤ N → N - v < fuel →
      ((∃ hc, server N = .ok hc ∧ hc.latest = true) ∨
        (∃ n code, v ≤ n ∧ n ≤ N ∧ server n = .httpError code)) →
      (fetchHistoricalContents server d fuel v).outcome ≠ .fuelOut ∧
      (fetchHistoricalContents server d fuel v).requests.length ≤ N - v + 1 := by
  intro fuel
  induction fuel with
  | zero => intro v N hvN hlt; omega
  | succ fuel ih =>
    intro v N hvN hlt hterm
    cases hsv : server v with
    | httpError code =>
      rw [fetchHC_error server d fuel v code hsv]
      by_cases hcode : code = 404 ∨ code = 500 <;> simp [hcode]
    | ok hc =>
      rw [fetchHC_ok server d fuel v hc hsv]
      by_cases hl : hc.latest
      · simp [hl]
      · simp only [hl, Bool.false_eq_true, if_false]
        have hvN' : v < N := by
          rcases Nat.eq_or_lt_of_le hvN with heq | h
          · exfalso
            subst heq
            rcases hterm with ⟨hc', hsv', hlatest'⟩ | ⟨n, code, hn1, hn2, hsrv⟩
            · rw [hsv] at hsv'
              cases hsv'
              rw [hlatest'] at hl
              exact hl rfl
            · have : n = v := by omega
              subst this
              rw [hsv] at hsrv
              cases hsrv
          · exact h
        have hterm' : (∃ hc, server N = .ok hc ∧ hc.latest = true) ∨
            (∃ n code, v + 1 ≤ n ∧ n ≤ N ∧ server n = .httpError code) := by
          rcases hterm with h | ⟨n, code, hn1, hn2, hsrv⟩
          · exact Or.inl h
          · rcases Nat.eq_or_lt_of_le hn1 with heq | h
            · exfalso; rw [← heq, hsv] at hsrv; cases hsrv
            · exact Or.inr ⟨n, code, h, hn2, hsrv⟩
        obtain ⟨hout, hlen⟩ := ih (v + 1) N (by omega) (by omega) hterm'
        refine ⟨hout, ?_⟩
        simp only [List.length_cons]
        omega

theorem digitChar_ne_hash (d : Nat) : digitChar d ≠ '#' := by
  unfold digitChar
  split <;> decide

theorem hash_not_mem_natDigits : ∀ fuel n, '#' ∉ natDigits fuel n := by
  intro fuel
  induction fuel with
  | zero => intro n; simp [natDigits]
  | succ fuel ih =>
    intro n
    unfold natDigits
    by_cases h : n < 10
    · simp only [h, if_true, List.mem_singleton]
      exact fun heq => digitChar_ne_hash n heq.symm
    · simp only [h, if_false, List.mem_append, List.mem_singleton]
      rintro (hmem | heq)
      · exact ih (n / 10) hmem
      · exact digitChar_ne_hash (n % 10) heq.symm

theorem charVal_digitChar (d : Nat) (h : d < 10) : charVal (digitChar d) = d := by
  interval_cases d <;> decide

theorem digitsVal_append_single (l : List Char) (c : Char) :
    digitsVal (l ++ [c]) = 10 * digitsVal l + charVal c := by
  simp [digitsVal, List.foldl_append]

theorem digitsVal_natDigits : ∀ fuel n, n < fuel → digitsVal (natDigits fuel n) = n := by
  intro fuel
  induction fuel with
  | zero => intro n h; omega
  | succ fuel ih =>
    intro n h
    unfold natDigits
    by_cases hn : n < 10
    · simp [hn, digitsVal, charVal_digitChar n hn]
    · simp only [hn, if_false]
      rw [digitsVal_append_single, ih (n / 10) (by omega),
        charVal_digitChar (n % 10) (Nat.mod_lt n (by omega))]
      omega

theorem natStr_inj (m n : Nat) (h : natStr m = natStr n) : m = n := by
  have hm : digitsVal (natDigits (m + 1) m) = m := digitsVal_natDigits (m + 1) m (by omega)
  have hn : digitsVal (natDigits (n + 1) n) = n := digitsVal_natDigits (n + 1) n (by omega)
  have hdata : natDigits (m + 1) m = natDigits (n + 1) n := congrArg String.data h
  rw [← hm, ← hn, hdata]

/-- Splitting at a separator character is unambiguous when the left part
is free of the separator: first-occurrence uniqueness. -/
theorem sep_split_unique (sep : Char) :
    ∀ (l₁ l₂ r₁ r₂ : List Char), sep ∉ l₁ → sep ∉ l₂ →
      l₁ ++ sep :: r₁ = l₂ ++ sep :: r₂ → l₁ = l₂ ∧ r₁ = r₂ := by
  intro l₁
  induction l₁ with
  | nil =>
    intro l₂ r₁ r₂ _ hl₂ heq
    cases l₂ with
    | nil => simpa using heq
    | cons c l₂ =>
      simp only [List.nil_append, List.cons_append, List.cons.injEq] at heq
      exact absurd (heq.1 ▸ List.mem_cons_self c l₂) (heq.1 ▸ hl₂)
  | cons c l₁ ih =>
    intro l₂ r₁ r₂ hl₁ hl₂ heq
    cases l₂ with
    | nil =>
      simp only [List.nil_append, List.cons_append, List.cons.injEq] at heq
      exact absurd (heq.1 ▸ List.mem_cons_self c l₁) (fun hm => hl₁ (heq.1 ▸ hm))
    | cons c' l₂ =>
      simp only [List.cons_append, List.cons.injEq] at heq
      obtain ⟨hc, htail⟩ := heq
      have hl₁' : sep ∉ l₁ := fun hm => hl₁ (List.mem_cons_of_mem c hm)
      have hl₂' : sep ∉ l₂ := fun hm => hl₂ (List.mem_cons_of_mem c' hm)
      obtain ⟨h1, h2⟩ := ih l₂ r₁ r₂ hl₁' hl₂' htail
      exact ⟨by rw [hc, h1], h2⟩

/-- `metadata_id` is injective on (content id, version number) pairs:
since the decimal version suffix contains no `#`, the last `#` in the
identity is the separator of the `<id>#v<version>` pattern. -/
theorem metadata_id_inj (a b : HC) (h : metadata_id a = metadata_id b) :
    a.id = b.id ∧ a.versionNumber = b.versionNumber := by
  have hdata : a.id.data ++ '#' :: 'v' :: natDigits (a.versionNumber + 1) a.versionNumber =
      b.id.data ++ '#' :: 'v' :: natDigits (b.versionNumber + 1) b.versionNumber := by
    have := congrArg String.data h
    simpa [metadata_id, natStr, String.data_append] using this
  have hrev : (natDigits (a.versionNumber + 1) a.versionNumber).reverse ++ 'v' :: '#' :: a.id.data.reverse =
      (natDigits (b.versionNumber + 1) b.versionNumber).reverse ++ 'v' :: '#' :: b.id.data.reverse := by
    have := congrArg List.reverse hdata
    simpa using this
  have hsplit := sep_split_unique '#'
    ((natDigits (a.versionNumber + 1) a.versionNumber).reverse ++ ['v'])
    ((natDigits (b.versionNumber + 1) b.versionNumber).reverse ++ ['v'])
    a.id.data.reverse b.id.data.reverse
    (by
      simp only [List.mem_append, List.mem_reverse, List.mem_singleton]
      rintro (hm | hm)
      · exact hash_not_mem_natDigits _ _ hm
      · exact absurd hm (by decide))
    (by
      simp only [List.mem_append, List.mem_reverse, List.mem_singleton]
      rintro (hm | hm)
      · exact hash_not_mem_natDigits _ _ hm
      · exact absurd hm (by decide))
    (by simpa using hrev)
  obtain ⟨hdig, hid⟩ := hsplit
  have hid' : a.id = b.id := by
    have hd : a.id.data = b.id.data := by
      have := congrArg List.reverse hid
      simpa using this
    cases ha : a.id with
    | mk la =>
      cases hb : b.id with
      | mk lb =>
        rw [ha, hb] at hd
        simp only [String.data] at hd
        rw [hd]
  have hdig' : natDigits (a.versionNumber + 1) a.versionNumber =
      natDigits (b.versionNumber + 1) b.versionNumber := by
    have := congrArg List.reverse hdig
    simpa using this
  refine ⟨hid', natStr_inj _ _ ?_⟩
  simpa [natStr] using congrArg String.mk hdig'

/-- A chained page sequence is traversed completely: one request per
page, the responses are exactly the pages, and the loop reaches its
normal exit. -/
theorem callTrace_of_chains (base : String) (server : String → Params → PageResponse) :
    ∀ pages url params fuel, Chains base server url params pages →
      pages.length ≤ fuel →
      (callTrace base server fuel url params).requests.length = pages.length ∧
      (callTrace base server fuel url params).responses = pages ∧
      (callTrace base server fuel url params).completed = true := by
  intro pages
  induction pages with
  | nil => intro url params fuel hch; exact absurd hch (by simp [Chains])
  | cons p rest ih =>
    intro url params fuel hch hlen
    cases rest with
    | nil =>
      obtain ⟨hsrv, hnext⟩ := hch
      cases fuel with
      | zero => simp at hlen
      | succ fuel =>
        simp [callTrace, hsrv, hnext]
    | cons q rest' =>
      obtain ⟨hsrv, nxt, hnext, hch'⟩ := hch
      cases fuel with
      | zero => simp at hlen
      | succ fuel =>
        obtain ⟨h1, h2, h3⟩ := ih (urijoin base nxt) [] fuel hch' (by
          simp only [List.length_cons] at hlen ⊢
          omega)
        simp [callTrace, hsrv, hnext, h1, h2, h3]

/-- The first request of a `_call` carries exactly the caller-supplied
url and parameters. -/
theorem callTrace_head (base : String) (server : String → Params → PageResponse)
    (fuel : Nat) (url : String) (params : Params) (h : 0 < fuel) :
    (callTrace base server fuel url params).requests.head? = some (url, params) := by
  cases fuel with
  | zero => omega
  | succ fuel =>
    cases hnl : (server url params).nextLink with
    | none => simp [callTrace, hnl]
    | some nxt => simp [callTrace, hnl]

/-- A `_call` started with the empty parameter dict only ever sends the
empty parameter dict. -/
theorem callTrace_nil_params (base : String) (server : String → Params → PageResponse) :
    ∀ fuel url, ∀ rq ∈ (callTrace base server fuel url []).requests, rq.2 = [] := by
  intro fuel
  induction fuel with
  | zero => intro url rq hrq; simp [callTrace] at hrq
  | succ fuel ih =>
    intro url rq hrq
    cases hnl : (server url []).nextLink with
    | none =>
      simp [callTrace, hnl] at hrq
      rw [hrq]
    | some nxt =>
      simp only [callTrace, hnl] at hrq
      rcases List.mem_cons.mp hrq with h | h
      · rw [h]
      · exact ih (urijoin base nxt) rq h

/-- Every continuation request (all but the first) of a `_call` carries
the empty parameter dict. -/
theorem callTrace_tail_params (base : String) (server : String → Params → PageResponse) :
    ∀ fuel url params, ∀ rq ∈ (callTrace base server fuel url params).requests.tail,
      rq.2 = [] := by
  intro fuel url params rq hrq
  cases fuel with
  | zero => simp [callTrace] at hrq
  | succ fuel =>
    cases hnl : (server url params).nextLink with
    | none => simp [callTrace, hnl] at hrq
    | some nxt =>
      simp only [callTrace, hnl, List.tail_cons] at hrq
      exact callTrace_nil_params base server fuel (urijoin base nxt) rq hrq

/-- Each continuation request is aimed at the join of the base url with
the preceding response's next link, with empty parameters. -/
theorem callTrace_link (base : String) (server : String → Params → PageResponse) :
    ∀ fuel url params i p rq,
      (callTrace base server fuel url params).responses[i]? = some p →
      (callTrace base server fuel url params).requests[i + 1]? = some rq →
      ∃ nxt, p.nextLink = some nxt ∧ rq = (urijoin base nxt, []) := by
  intro fuel
  induction fuel with
  | zero => intro url params i p rq hp; simp [callTrace] at hp
  | succ fuel ih =>
    intro url params i p rq hp hrq
    cases hnl : (server url params).nextLink with
    | none =>
      simp only [callTrace, hnl] at hp hrq
      rcases i with _ | i <;> simp at hrq
    | some nxt =>
      simp only [callTrace, hnl] at hp hrq
      rcases i with _ | i
      · simp only [List.getElem?_cons_zero, Option.some.injEq] at hp
        simp only [List.getElem?_cons_succ] at hrq
        subst hp
        refine ⟨nxt, hnl, ?_⟩
        have hhead := callTrace_head base server fuel (urijoin base nxt) []
        cases fuel with
        | zero => simp [callTrace] at hrq
        | succ fuel =>
          have := hhead (by omega)
          rw [List.head?_eq_getElem?] at this
          rw [hrq] at this
          injection this with h
      · simp only [List.getElem?_cons_succ] at hp hrq
        exact ih (urijoin base nxt) [] i p rq hp hrq

/-- Consecutive runs step by exactly one. -/
theorem chain'_succ_range' : ∀ n s, List.Chain' (fun a b => b = a + 1) (List.range' s n) := by
  intro n
  induction n with
  | zero => intro s; simp
  | succ n ih =>
    intro s
    rw [List.range'_succ]
    cases n with
    | zero => simp
    | succ m =>
      rw [List.range'_succ]
      refine List.chain'_cons.mpr ⟨rfl, ?_⟩
      rw [← List.range'_succ]
      exact ih (s + 1)

/-- Under a faithful server, every emitted content of a walk carries the
walked content id, and emitted version numbers strictly increase. -/
theorem walk_emitted_id_num (server : Nat → FetchResult) (cid : String)
    (hfaith : FaithfulAt server cid) (d : Int) (fuel : Nat) :
    (∀ hc ∈ (fetchHistoricalContents server d fuel 1).emitted, hc.id = cid) ∧
    List.Pairwise (fun a b => a.versionNumber < b.versionNumber)
      (fetchHistoricalContents server d fuel 1).emitted := by
  have hsub : (fetchHistoricalContents server d fuel 1).emitted.Sublist
      (fetchHistoricalContents server d fuel 1).fetched := by
    rw [emitted_eq_fetched_filter]
    exact List.filter_sublist _
  constructor
  · intro hc hmem
    exact ((fetched_bounds server d cid hfaith fuel 1).1 hc (hsub.mem hmem)).2
  · exact (fetched_bounds server d cid hfaith fuel 1).2.sublist hsub

/-- Every envelope of the harvest body passes the checkpoint filter. -/
theorem processSummaries_emitted_when (origin : String)
    (vserver : String → Nat → FetchResult) (d : Int) (vfuel : Nat) :
    ∀ l env, env ∈ (processSummaries origin vserver d vfuel l).emitted →
      d ≤ env.hc.versionWhen := by
  intro l
  induction l with
  | nil => intro env hmem; simp [processSummaries] at hmem
  | cons c rest ih =>
    intro env hmem
    have hfil := emitted_eq_fetched_filter (vserver c.id) d vfuel 1
    cases hout : (fetchHistoricalContents (vserver c.id) d vfuel 1).outcome with
    | done =>
      simp only [processSummaries, hout, List.mem_append] at hmem
      rcases hmem with h | h
      · obtain ⟨hc, hhc, henv⟩ := List.mem_map.mp h
        rw [hfil] at hhc
        have := (List.mem_filter.mp hhc).2
        rw [← henv]
        simpa [normalizeItem] using this
      · exact ih env h
    | raised code =>
      simp only [processSummaries, hout] at hmem
      obtain ⟨hc, hhc, henv⟩ := List.mem_map.mp hmem
      rw [hfil] at hhc
      have := (List.mem_filter.mp hhc).2
      rw [← henv]
      simpa [normalizeItem] using this
    | fuelOut =>
      simp only [processSummaries, hout] at hmem
      obtain ⟨hc, hhc, henv⟩ := List.mem_map.mp hmem
      rw [hfil] at hhc
      have := (List.mem_filter.mp hhc).2
      rw [← henv]
      simpa [normalizeItem] using this

/-- Every harvested envelope originates from some summary of the list and
some content emitted by that summary's walk. -/
theorem processSummaries_emitted_mem (origin : String)
    (vserver : String → Nat → FetchResult) (d : Int) (vfuel : Nat) :
    ∀ l env, env ∈ (processSummaries origin vserver d vfuel l).emitted →
      ∃ c ∈ l, ∃ hc ∈ (fetchHistoricalContents (vserver c.id) d vfuel 1).emitted,
        env = normalizeItem origin c hc := by
  intro l
  induction l with
  | nil => intro env hmem; simp [processSummaries] at hmem
  | cons c rest ih =>
    intro env hmem
    cases hout : (fetchHistoricalContents (vserver c.id) d vfuel 1).outcome with
    | done =>
      simp only [processSummaries, hout, List.mem_append] at hmem
      rcases hmem with h | h
      · obtain ⟨hc, hhc, henv⟩ := List.mem_map.mp h
        exact ⟨c, List.mem_cons_self c rest, hc, hhc, henv.symm⟩
      · obtain ⟨c', hc', hc'', hmem', henv⟩ := ih env h
        exact ⟨c', List.mem_cons_of_mem c hc', hc'', hmem', henv⟩
    | raised code =>
      simp only [processSummaries, hout] at hmem
      obtain ⟨hc, hhc, henv⟩ := List.mem_map.mp hmem
      exact ⟨c, List.mem_cons_self c rest, hc, hhc, henv.symm⟩
    | fuelOut =>
      simp only [processSummaries, hout] at hmem
      obtain ⟨hc, hhc, henv⟩ := List.mem_map.mp hmem
      exact ⟨c, List.mem_cons_self c rest, hc, hhc, henv.symm⟩

/-- The identities of the contents emitted by one faithful walk are
pairwise distinct. -/
theorem walk_idents_nodup (server : Nat → FetchResult) (cid : String)
    (hfaith : FaithfulAt server cid) (d : Int) (fuel : Nat) :
    ((fetchHistoricalContents server d fuel 1).emitted.map metadata_id).Nodup := by
  have hpw := (walk_emitted_id_num server cid hfaith d fuel).2
  refine List.Pairwise.map metadata_id ?_ hpw
  intro a b hlt heq
  obtain ⟨_, hnum⟩ := metadata_id_inj a b heq
  omega

/-- Identities are pairwise distinct across the whole harvest body when
the version servers are faithful and the summary ids are distinct. -/
theorem processSummaries_idents_nodup (origin : String)
    (vserver : String → Nat → FetchResult) (d : Int) (vfuel : Nat)
    (hfaith : ∀ cid, FaithfulAt (vserver cid) cid) :
    ∀ l, (l.map Summary.id).Nodup →
      ((processSummaries origin vserver d vfuel l).emitted.map
        (fun e => metadata_id e.hc)).Nodup := by
  intro l
  induction l with
  | nil => intro _; simp [processSummaries]
  | cons c rest ih =>
    intro hids
    rw [List.map_cons, List.nodup_cons] at hids
    obtain ⟨hnotin, hrest⟩ := hids
    have hmapeq : ∀ t : List HC, (t.map (normalizeItem origin c)).map
        (fun e : Envelope => metadata_id e.hc) = t.map metadata_id := by
      intro t
      rw [List.map_map]
      rfl
    have hhead : (((fetchHistoricalContents (vserver c.id) d vfuel 1).emitted.map
        (normalizeItem origin c)).map (fun e : Envelope => metadata_id e.hc)).Nodup := by
      rw [hmapeq]
      exact walk_idents_nodup (vserver c.id) c.id (hfaith c.id) d vfuel
    cases hout : (fetchHistoricalContents (vserver c.id) d vfuel 1).outcome with
    | done =>
      simp only [processSummaries, hout, List.map_append]
      rw [List.nodup_append]
      refine ⟨hhead, ih hrest, ?_⟩
      intro x hx hx'
      obtain ⟨env, henv, hxid⟩ := List.mem_map.mp hx
      obtain ⟨env', henv', hxid'⟩ := List.mem_map.mp hx'
      obtain ⟨hc, hhc, heq⟩ := List.mem_map.mp henv
      obtain ⟨c', hc'mem, hc'', hmem'', heq'⟩ :=
        processSummaries_emitted_mem origin vserver d vfuel rest env' henv'
      have hid1 : hc.id = c.id :=
        (walk_emitted_id_num (vserver c.id) c.id (hfaith c.id) d vfuel).1 hc hhc
      have hid2 : hc''.id = c'.id :=
        (walk_emitted_id_num (vserver c'.id) c'.id (hfaith c'.id) d vfuel).1 hc'' hmem''
      have hxeq : metadata_id hc = metadata_id hc'' := by
        rw [← heq] at hxid
        rw [heq'] at hxid'
        simp only [normalizeItem] at hxid hxid'
        rw [hxid, ← hxid']
      obtain ⟨hideq, _⟩ := metadata_id_inj hc hc'' hxeq
      apply hnotin
      rw [← hid1, hideq, hid2]
      exact List.mem_map.mpr ⟨c', hc'mem, rfl⟩
    | raised code =>
      simp only [processSummaries, hout]
      exact hhead
    | fuelOut =>
      simp only [processSummaries, hout]
      exact hhead

/-! ## Claims -/

/-- C1: the version walk emits a fetched version iff its `updatedAt` is
at or after the checkpoint (the emitted list is the fetched list under
the `when >= from_date` filter); a version below the checkpoint is
skipped but the walk still advances (the requested versions do not
depend on the checkpoint at all); and every envelope emitted by the
harvest has `updatedOnEpoch >= C`. -/
theorem C1_emission_iff_checkpoint (server : Nat → FetchResult) (d d' : Int) (fuel : Nat)
    (url : String) (pserver : String → Params → PageResponse)
    (vserver : String → Nat → FetchResult) (aa : Bool) (pfuel vfuel : Nat) :
    (walk server d fuel).emitted =
      (walk server d fuel).fetched.filter (fun hc => d ≤ hc.versionWhen) ∧
    (walk server d fuel).requests = (walk server d' fuel).requests ∧
    ∀ env ∈ (fetch_items url pserver vserver aa d pfuel vfuel).emitted,
      d ≤ metadata_updated_on env.hc := by
  refine ⟨emitted_eq_fetched_filter server d fuel 1,
    requests_indep_of_checkpoint server d d' fuel 1, ?_⟩
  intro env hmem
  exact processSummaries_emitted_when url vserver d vfuel _ env hmem

theorem C1_emission_iff_checkpoint_witness :
    (Envelope.mk ⟨"cA", 1, 50, true⟩ (urijoin "b" "/pA") (some ["b/anc1"]) ∈
      (fetch_items "b" pserverAnc vserver1 false 5 1 1).emitted) ∧
    (5 : Int) ≤ metadata_updated_on (HC.mk "cA" 1 50 true) :=
  ⟨by decide,
    (C1_emission_iff_checkpoint (vsOf historyA) 5 0 2 "b" pserverAnc vserver1 false 1 1).2.2
      (Envelope.mk ⟨"cA", 1, 50, true⟩ (urijoin "b" "/pA") (some ["b/anc1"])) (by decide)⟩

/-- C2: an HTTP error with status 404 ("not found") or 500 ("server
error") on some version terminates that content id's walk without
raising — the versions requested are exactly those up to the failing
one, everything emitted comes from the successful pre-error fetches —
while any other status code is re-raised; a raised walk aborts the whole
harvest, keeping the envelopes already yielded. -/
theorem C2_http_error_handling (server : Nat → FetchResult) (d : Int)
    (fuel n code : Nat) (h1 : 1 ≤ n) (hfuel : n - 1 < fuel)
    (hok : ∀ i, 1 ≤ i → i < n → ∃ hc, server i = .ok hc ∧ hc.latest = false)
    (hn : server n = .httpError code) :
    ((code = 404 ∨ code = 500) →
      (walk server d fuel).outcome = .done ∧
      (walk server d fuel).requests = List.range' 1 n ∧
      ∀ hc ∈ (walk server d fuel).emitted, ∃ i, 1 ≤ i ∧ i < n ∧ server i = .ok hc) ∧
    (¬(code = 404 ∨ code = 500) →
      (walk server d fuel).outcome = .raised code) ∧
    ∀ (origin : String) (vserver : String → Nat → FetchResult) (vfuel : Nat)
      (c : Summary) (rest : List Summary),
      (fetchHistoricalContents (vserver c.id) d vfuel 1).outcome = .raised code →
      (processSummaries origin vserver d vfuel (c :: rest)).outcome = .raised code ∧
      (processSummaries origin vserver d vfuel (c :: rest)).emitted =
        (fetchHistoricalContents (vserver c.id) d vfuel 1).emitted.map
          (normalizeItem origin c) := by
  obtain ⟨hreq, hfetch, hout⟩ :=
    walk_stops_at_error server d fuel 1 n code h1 hfuel
      (fun i hi1 hi2 => hok i hi1 hi2) hn
  have hn1 : n - 1 + 1 = n := by omega
  refine ⟨?_, ?_, ?_⟩
  · intro hcode
    refine ⟨?_, ?_, ?_⟩
    · rw [show walk server d fuel = fetchHistoricalContents server d fuel 1 from rfl, hout]
      simp [hcode]
    · rw [show walk server d fuel = fetchHistoricalContents server d fuel 1 from rfl, hreq, hn1]
    · intro hc hmem
      have hsub : (walk server d fuel).emitted.Sublist (walk server d fuel).fetched := by
        rw [show walk server d fuel = fetchHistoricalContents server d fuel 1 from rfl,
          emitted_eq_fetched_filter]
        exact List.filter_sublist _
      exact hfetch hc (hsub.mem hmem)
  · intro hcode
    rw [show walk server d fuel = fetchHistoricalContents server d fuel 1 from rfl, hout]
    simp [hcode]
  · intro origin vserver vfuel c rest hraised
    constructor
    · simp [processSummaries, hraised]
    · simp [processSummaries, hraised]

theorem C2_http_error_handling_witness :
    (serverB 5 = .httpError 500) ∧
    (walk serverB 0 9).outcome = .done ∧
    (walk serverB 0 9).requests = List.range' 1 5 ∧
    (walk serverB 0 9).emitted =
      [⟨"cB", 1, 20, false⟩, ⟨"cB", 2, 20, false⟩, ⟨"cB", 3, 20, false⟩,
        ⟨"cB", 4, 20, false⟩] := by
  have h := C2_http_error_handling serverB 0 9 5 500 (by decide) (by decide)
    (fun i hi1 hi2 => by interval_cases i <;> exact ⟨_, rfl, rfl⟩) rfl
  obtain ⟨hdone, hreqs, _⟩ := h.1 (Or.inr rfl)
  exact ⟨rfl, hdone, hreqs, by decide⟩

/-- C3: within one content id's walk, the requested version numbers form
the consecutive run 1, 2, 3, … (increase by exactly 1, never revisit a
number); under a faithful server the emitted version numbers strictly
increase; and no version is requested after one flagged latest. -/
theorem C3_walk_request_invariants (server : Nat → FetchResult) (cid : String)
    (d : Int) (fuel : Nat) (hfaith : FaithfulAt server cid) :
    (walk server d fuel).requests =
      List.range' 1 (walk server d fuel).requests.length ∧
    List.Chain' (fun a b => b = a + 1) (walk server d fuel).requests ∧
    (walk server d fuel).requests.Nodup ∧
    List.Pairwise (fun a b => a.versionNumber < b.versionNumber)
      (walk server d fuel).emitted ∧
    (∀ i hc, i ∈ (walk server d fuel).requests → server i = .ok hc →
      hc.latest = true → (walk server d fuel).requests.getLast? = some i) := by
  have hrange := requests_eq_range' server d fuel 1
  refine ⟨hrange, ?_, ?_, ?_, ?_⟩
  · rw [show walk server d fuel = fetchHistoricalContents server d fuel 1 from rfl, hrange]
    exact chain'_succ_range' _ 1
  · rw [show walk server d fuel = fetchHistoricalContents server d fuel 1 from rfl, hrange]
    exact List.nodup_range' 1 _
  · exact (walk_emitted_id_num server cid hfaith d fuel).2
  · intro i hc hmem hsrv hlatest
    exact latest_is_last_request server d fuel 1 i hc hmem hsrv hlatest

theorem C3_walk_request_invariants_witness :
    FaithfulAt (vsOf historyA) "c1" ∧
    (walk (vsOf historyA) 5 9).requests = [1, 2] ∧
    List.Pairwise (fun a b => a.versionNumber < b.versionNumber)
      (walk (vsOf historyA) 5 9).emitted := by
  have hfaith : FaithfulAt (vsOf historyA) "c1" := by
    intro v hc h
    match v, h with
    | 0, h => simp [vsOf] at h
    | 1, h =>
      simp only [vsOf, historyA] at h
      cases h
      exact ⟨rfl, rfl⟩
    | 2, h =>
      simp only [vsOf, historyA] at h
      cases h
      exact ⟨rfl, rfl⟩
    | v + 3, h => simp [vsOf, historyA] at h
  exact ⟨hfaith, by decide,
    (C3_walk_request_invariants (vsOf historyA) "c1" 5 9 hfaith).2.2.2.1⟩

/-- C4: the walk is finite — if some version `N` is flagged latest, or
some version at or before `N` fails with a 404/500, the walk terminates
(no fuel exhaustion for any fuel `≥ N`) after at most `N` fetches. -/
theorem C4_walk_termination (server : Nat → FetchResult) (d : Int) (N fuel : Nat)
    (hN : 1 ≤ N) (hfuel : N ≤ fuel)
    (hterm : (∃ hc, server N = .ok hc ∧ hc.latest = true) ∨
      (∃ n code, 1 ≤ n ∧ n ≤ N ∧ server n = .httpError code ∧
        (code = 404 ∨ code = 500))) :
    (walk server d fuel).outcome ≠ .fuelOut ∧
    (walk server d fuel).requests.length ≤ N := by
  have hterm' : (∃ hc, server N = .ok hc ∧ hc.latest = true) ∨
      (∃ n code, 1 ≤ n ∧ n ≤ N ∧ server n = .httpError code) := by
    rcases hterm with h | ⟨n, code, h1, h2, h3, _⟩
    · exact Or.inl h
    · exact Or.inr ⟨n, code, h1, h2, h3⟩
  obtain ⟨hout, hlen⟩ := walk_terminates_aux server d fuel 1 N hN (by omega) hterm'
  refine ⟨hout, ?_⟩
  show (fetchHistoricalContents server d fuel 1).requests.length ≤ N
  omega

theorem C4_walk_termination_witness :
    ((vsOf historyA) 2 = .ok ⟨"c1", 2, 3, true⟩) ∧
    (walk (vsOf historyA) 0 2).outcome ≠ .fuelOut ∧
    (walk (vsOf historyA) 0 2).requests.length ≤ 2 :=
  ⟨rfl, C4_walk_termination (vsOf historyA) 0 2 2 (by decide) (by decide)
    (Or.inl ⟨⟨"c1", 2, 3, true⟩, rfl, rfl⟩)⟩

/-- C5: the paginator issues one request per page, following the
server-supplied continuation link, stopping at the first page without
one; the summary stream is the page-order concatenation of every page's
results.  Concretely, three pages of sizes 2, 2, 1 (the last without a
cursor) produce exactly 5 summaries from exactly 3 requests. -/
theorem C5_pagination (base : String) (server : String → Params → PageResponse)
    (url : String) (params : Params) (pages : List PageResponse) (fuel : Nat)
    (hch : Chains base server url params pages) (hfuel : pages.length ≤ fuel) :
    (callTrace base server fuel url params).requests.length = pages.length ∧
    (callTrace base server fuel url params).responses = pages ∧
    (callTrace base server fuel url params).completed = true ∧
    contentsSummaries (callTrace base server fuel url params) =
      (pages.map PageResponse.results).flatten ∧
    ((contents "b" pserver3 false 0 none MAX_CONTENTS 3).requests.length = 3 ∧
      contentsSummaries (contents "b" pserver3 false 0 none MAX_CONTENTS 3) =
        [⟨"s1", "/p1", none⟩, ⟨"s2", "/p2", none⟩, ⟨"s3", "/p3", none⟩,
          ⟨"s4", "/p4", none⟩, ⟨"s5", "/p5", none⟩]) := by
  obtain ⟨h1, h2, h3⟩ := callTrace_of_chains base server pages url params fuel hch hfuel
  refine ⟨h1, h2, h3, ?_, by decide, by decide⟩
  rw [contentsSummaries, h2]

theorem C5_pagination_witness :
    Chains "b" pserver3 (resourceUrl "b" (contentsResource false))
      (contentsParams 0 none MAX_CONTENTS) [pageOf 0, pageOf 1, pageOf 2] ∧
    (callTrace "b" pserver3 3 (resourceUrl "b" (contentsResource false))
      (contentsParams 0 none MAX_CONTENTS)).requests.length =
      ([pageOf 0, pageOf 1, pageOf 2] : List PageResponse).length := by
  have hch : Chains "b" pserver3 (resourceUrl "b" (contentsResource false))
      (contentsParams 0 none MAX_CONTENTS) [pageOf 0, pageOf 1, pageOf 2] :=
    ⟨by decide, "n1", by decide, by decide, "n2", by decide, by decide, by decide⟩
  exact ⟨hch, (C5_pagination "b" pserver3 (resourceUrl "b" (contentsResource false))
    (contentsParams 0 none MAX_CONTENTS) [pageOf 0, pageOf 1, pageOf 2] 3 hch
    (by decide)).1⟩

/-- C10: within one paginated call, the full query parameters (the CQL
date filter built from the checkpoint, the page-size limit, and the
start offset when supplied and non-zero) are sent only with the first
request; every continuation request targets the join of the base url
with the server-supplied next link and carries an empty parameter set. -/
theorem C10_continuation_params (base : String) (server : String → Params → PageResponse)
    (aa : Bool) (d : Int) (off : Option Nat) (mx o : Nat) (fuel : Nat)
    (hfuel : 0 < fuel) (ho : o ≠ 0) :
    (contents base server aa d off mx fuel).requests.head? =
      some (resourceUrl base (contentsResource aa), contentsParams d off mx) ∧
    (∀ rq ∈ (contents base server aa d off mx fuel).requests.tail, rq.2 = []) ∧
    (∀ i p rq, (contents base server aa d off mx fuel).responses[i]? = some p →
      (contents base server aa d off mx fuel).requests[i + 1]? = some rq →
      ∃ nxt, p.nextLink = some nxt ∧ rq = (urijoin base nxt, [])) ∧
    contentsParams d none mx = [("cql", vcql (dateFmt d)), ("limit", natStr mx)] ∧
    contentsParams d (some o) mx =
      [("cql", vcql (dateFmt d)), ("limit", natStr mx), ("start", natStr o)] := by
  refine ⟨callTrace_head base server fuel _ _ hfuel,
    callTrace_tail_params base server fuel _ _,
    callTrace_link base server fuel _ _,
    rfl, ?_⟩
  simp [contentsParams, ho]

theorem C10_continuation_params_witness :
    0 < 3 ∧ (7 : Nat) ≠ 0 ∧
    (contents "b" pserver3 false 0 none MAX_CONTENTS 3).requests.head? =
      some (resourceUrl "b" (contentsResource false), contentsParams 0 none MAX_CONTENTS) :=
  ⟨by decide, by decide,
    (C10_continuation_params "b" pserver3 false 0 none MAX_CONTENTS 7 3
      (by decide) (by decide)).1⟩

/-- C6: the identity of an item is `<id>#v<version>`, this mapping is
injective on (content id, version number) pairs — even when different
ids share a version number — and across one harvest (faithful version
servers, distinct summary ids) all emitted identities are pairwise
distinct. -/
theorem C6_identity_uniqueness (a b : HC) (url : String)
    (pserver : String → Params → PageResponse)
    (vserver : String → Nat → FetchResult) (aa : Bool) (d : Int) (pfuel vfuel : Nat)
    (hfaith : ∀ cid, FaithfulAt (vserver cid) cid)
    (hids : ((contentsSummaries
      (contents url pserver aa d none MAX_CONTENTS pfuel)).map Summary.id).Nodup)
    (hid : metadata_id a = metadata_id b) :
    metadata_id a = a.id ++ "#v" ++ natStr a.versionNumber ∧
    (a.id = b.id ∧ a.versionNumber = b.versionNumber) ∧
    ((fetch_items url pserver vserver aa d pfuel vfuel).emitted.map
      (fun e => metadata_id e.hc)).Nodup := by
  refine ⟨rfl, metadata_id_inj a b hid, ?_⟩
  exact processSummaries_idents_nodup url vserver d vfuel hfaith _ hids

theorem C6_identity_uniqueness_witness :
    (∀ cid, FaithfulAt (vserver1 cid) cid) ∧
    ((contentsSummaries (contents "b" pserverTwo false 0 none MAX_CONTENTS 2)).map
      Summary.id).Nodup ∧
    metadata_id ⟨"x", 3, 0, false⟩ = metadata_id ⟨"x", 3, 0, false⟩ ∧
    ((fetch_items "b" pserverTwo vserver1 false 0 2 1).emitted.map
      (fun e => metadata_id e.hc)).Nodup := by
  have hfaith : ∀ cid, FaithfulAt (vserver1 cid) cid := by
    intro cid v hc h
    simp only [vserver1] at h
    by_cases hv : v = 1
    · rw [if_pos hv] at h
      cases h
      exact ⟨rfl, hv.symm⟩
    · rw [if_neg hv] at h
      cases h
  exact ⟨hfaith, by decide, rfl,
    (C6_identity_uniqueness ⟨"x", 3, 0, false⟩ ⟨"x", 3, 0, false⟩ "b" pserverTwo
      vserver1 false 0 2 1 hfaith (by decide) rfl).2.2⟩

/-- C7: checkpoint resolution is total — an absent `from_date` resolves
to the epoch-zero full-harvest sentinel, a present one is converted to
UTC unchanged — the query parameters depend on the checkpoint only
through its minute truncation, while the in-process emission filter
distinguishes instants within the same minute (full seconds
resolution). -/
theorem C7_checkpoint_resolution (t t' : Int) (off : Option Nat) (mx : Nat)
    (hmin : t / 60 = t' / 60) :
    resolveFromDate none = 0 ∧
    (∀ s : Int, resolveFromDate (some s) = s) ∧
    contentsParams t off mx = contentsParams t' off mx ∧
    (contentsParams 0 none MAX_CONTENTS = contentsParams 30 none MAX_CONTENTS ∧
      (walk (vsOf historyA) 0 9).emitted ≠ (walk (vsOf historyA) 30 9).emitted) := by
  refine ⟨rfl, fun s => rfl, ?_, by decide, by decide⟩
  simp [contentsParams, vcql, dateFmt, hmin]

theorem C7_checkpoint_resolution_witness :
    ((0 : Int) / 60 = (30 : Int) / 60) ∧
    contentsParams 0 none MAX_CONTENTS = contentsParams 30 none MAX_CONTENTS :=
  ⟨by decide, (C7_checkpoint_resolution 0 30 none MAX_CONTENTS (by decide)).2.2.1⟩

/-- C8 counterexample: the claim says ancestor URLs are attached only
when the summary carries a non-empty ancestor list AND the harvest was
configured to resolve ancestors, the field being absent in every other
case.  Here the harvest is configured with `add_ancestors = false`
(fourth argument of `fetch_items`), yet the summary carries an ancestor
list and the emitted envelope has the field set: `add_ancestors` is
applied unconditionally in `fetch_items` (confluence.py line 132); the
configuration flag only changes the search resource queried
(confluence.py lines 359-360). -/
theorem C8_ancestors_counterexample :
    (fetch_items "b" pserverAnc vserver1 false 0 1 1).emitted.map
      Envelope.ancestorUrls = [some ["b/anc1"]] := by decide

/-- C8 (amended): the normalizer attaches the ancestor-URL list (origin
joined with each ancestor's UI path, in order) exactly when the summary
carries a present, non-empty ancestor list — independently of the
configuration flag, which only selects the queried search resource —
and the field is never set to an empty list; every emitted envelope's
ancestors field is the one computed from its own summary. -/
theorem C8_ancestors_amended (origin : String) (c : Summary)
    (vserver : String → Nat → FetchResult) (d : Int) (vfuel : Nat) :
    (add_ancestors origin c = none ↔ (c.ancestors = none ∨ c.ancestors = some [])) ∧
    add_ancestors origin c ≠ some [] ∧
    (∀ l, c.ancestors = some l → l ≠ [] →
      add_ancestors origin c = some (l.map (fun a => origin ++ a))) ∧
    (∀ l env, env ∈ (processSummaries origin vserver d vfuel l).emitted →
      ∃ c' ∈ l, env.ancestorUrls = add_ancestors origin c') := by
  refine ⟨?_, ?_, ?_, ?_⟩
  · cases hanc : c.ancestors with
    | none => simp [add_ancestors, hanc]
    | some l =>
      cases l with
      | nil => simp [add_ancestors, hanc]
      | cons a as => simp [add_ancestors, hanc]
  · cases hanc : c.ancestors with
    | none => simp [add_ancestors, hanc]
    | some l =>
      cases l with
      | nil => simp [add_ancestors, hanc]
      | cons a as => simp [add_ancestors, hanc]
  · intro l hl hne
    simp [add_ancestors, hl, hne]
  · intro l env hmem
    obtain ⟨c', hc', hc'', _, henv⟩ :=
      processSummaries_emitted_mem origin vserver d vfuel l env hmem
    refine ⟨c', hc', ?_⟩
    rw [henv]
    rfl

theorem C8_ancestors_amended_witness :
    (Summary.mk "cA" "/pA" (some ["/anc1"])).ancestors = some ["/anc1"] ∧
    (["/anc1"] : List String) ≠ [] ∧
    add_ancestors "b" (Summary.mk "cA" "/pA" (some ["/anc1"])) =
      some (["/anc1"].map (fun a => "b" ++ a)) :=
  ⟨rfl, by decide,
    (C8_ancestors_amended "b" (Summary.mk "cA" "/pA" (some ["/anc1"]))
      vserver1 0 1).2.2.1 ["/anc1"] rfl (by decide)⟩

/-- C9 counterexample: the claim says the harvest consumes summaries
lazily, never materialising all summaries before starting a version
walk.  In this two-page harvest the request trace shows both page
requests issued before the first version request — the summary
generator is drained into a list (`contents = [content for content in
contents]`, confluence.py line 122) before any walk begins; a lazy
flat-map would have interleaved the first summary's version request
between the two page requests. -/
theorem C9_laziness_counterexample :
    harvestRequests (fetch_items "b" pserverTwo vserver1 false 0 2 1) =
      [Req.page (resourceUrl "b" (contentsResource false))
        (contentsParams 0 none MAX_CONTENTS),
       Req.page (urijoin "b" "n1") [],
       Req.version "c1" 1,
       Req.version "c2" 1] := by decide

/-- C9 (amended): the harvest first drains the whole summary pagination,
materialising the summary list — every page request precedes every
version request — and then processes summaries strictly one at a time,
fully draining each summary's version walk (its requests and envelopes
come as one contiguous block) before advancing to the next summary. -/
theorem C9_materialisation_amended (url : String)
    (pserver : String → Params → PageResponse)
    (vserver : String → Nat → FetchResult) (aa : Bool) (d : Int)
    (pfuel vfuel : Nat) (origin : String) (c : Summary) (rest : List Summary) :
    harvestRequests (fetch_items url pserver vserver aa d pfuel vfuel) =
      (contents url pserver aa d none MAX_CONTENTS pfuel).requests.map
        (fun rq => Req.page rq.1 rq.2) ++
      (processSummaries url vserver d vfuel
        (contentsSummaries (contents url pserver aa d none MAX_CONTENTS pfuel))).versionRequests.map
        (fun rv => Req.version rv.1 rv.2) ∧
    (∃ tailReqs tailEnvs,
      (processSummaries origin vserver d vfuel (c :: rest)).versionRequests =
        (walk (vserver c.id) d vfuel).requests.map (fun v => (c.id, v)) ++ tailReqs ∧
      (processSummaries origin vserver d vfuel (c :: rest)).emitted =
        (walk (vserver c.id) d vfuel).emitted.map (normalizeItem origin c) ++ tailEnvs ∧
      ((walk (vserver c.id) d vfuel).outcome = .done →
        tailReqs = (processSummaries origin vserver d vfuel rest).versionRequests ∧
        tailEnvs = (processSummaries origin vserver d vfuel rest).emitted)) := by
  refine ⟨rfl, ?_⟩
  cases hout : (fetchHistoricalContents (vserver c.id) d vfuel 1).outcome with
  | done =>
    refine ⟨(processSummaries origin vserver d vfuel rest).versionRequests,
      (processSummaries origin vserver d vfuel rest).emitted, ?_, ?_, fun _ => ⟨rfl, rfl⟩⟩
    · simp [processSummaries, hout, walk]
    · simp [processSummaries, hout, walk]
  | raised code =>
    refine ⟨[], [], ?_, ?_, ?_⟩
    · simp [processSummaries, hout, walk]
    · simp [processSummaries, hout, walk]
    · intro hdone
      rw [show walk (vserver c.id) d vfuel =
        fetchHistoricalContents (vserver c.id) d vfuel 1 from rfl, hout] at hdone
      cases hdone
  | fuelOut =>
    refine ⟨[], [], ?_, ?_, ?_⟩
    · simp [processSummaries, hout, walk]
    · simp [processSummaries, hout, walk]
    · intro hdone
      rw [show walk (vserver c.id) d vfuel =
        fetchHistoricalContents (vserver c.id) d vfuel 1 from rfl, hout] at hdone
      cases hdone

theorem C9_materialisation_amended_witness :
    (walk (vserver1 "c1") 0 1).outcome = .done ∧
    (processSummaries "b" vserver1 0 1
        [Summary.mk "c1" "/p1" none, Summary.mk "c2" "/p2" none]).versionRequests =
      (walk (vserver1 "c1") 0 1).requests.map (fun v => ("c1", v)) ++
        (processSummaries "b" vserver1 0 1 [Summary.mk "c2" "/p2" none]).versionRequests := by
  obtain ⟨tailReqs, tailEnvs, hreq, _, hdone⟩ :=
    (C9_materialisation_amended "b" pserverTwo vserver1 false 0 2 1 "b"
      (Summary.mk "c1" "/p1" none) [Summary.mk "c2" "/p2" none]).2
  have hout : (walk (vserver1 "c1") 0 1).outcome = .done := by decide
  obtain ⟨hr, _⟩ := hdone hout
  exact ⟨hout, by rw [hreq, hr]⟩

end Confluence
